import Mathlib

/-!
Verification of the provably-fair core of the Mines game (`src/app.js`).

The JavaScript source is shallowly embedded: machine floating-point values
(all of which stay inside exactly representable ranges in the code paths
modelled here, or are treated as exact real arithmetic) are modelled as
rationals, JS `Set` objects as `Finset ℕ`, JS arrays as `List ℕ`, and the
DOM-held globals of `app.js` as fields of an explicit `GameState` record.
The external WebCrypto primitives (SHA-256 and HMAC-SHA-256, lines 11-26 of
`app.js`) are not code of this repository; they are passed in as function
parameters `H : String → String` (hex digest of a string) and
`hmac : String → String → List ℕ` (the 32-byte MAC block; the source's
`bufToHex`/`hexToBytes` round-trip on that block is the identity on bytes).
-/

namespace MockMines

/-- State of the closure returned by `Keystream(serverSeed, clientSeed, nonce)`
(`app.js` lines 46-65): the internal block `counter` and the remaining byte
`buffer`. -/
structure KSState where
  counter : ℕ
  buffer : List ℕ

/-- Initial keystream state: `counter = 0`, empty buffer (`app.js` lines 47-48). -/
def initKS : KSState := ⟨0, []⟩

/-- The MAC message `` `${clientSeed}:${nonce}:${counter}` `` built in `refill`
(`app.js` line 51). -/
def macMsg (clientSeed : String) (nonce counter : ℕ) : String :=
  clientSeed ++ ":" ++ toString nonce ++ ":" ++ toString counter

/-- Assumption on the external MAC primitive: HMAC-SHA-256 always returns a
32-byte block, each byte below 256. -/
def ValidMac (hmac : String → String → List ℕ) : Prop :=
  ∀ k m, (hmac k m).length = 32 ∧ ∀ b ∈ hmac k m, b < 256

/-- `refill()` (`app.js` lines 50-54): replace the buffer with the MAC of
`clientSeed:nonce:counter` under key `serverSeed`, incrementing the counter. -/
def refill (hmac : String → String → List ℕ) (serverSeed clientSeed : String)
    (nonce : ℕ) (st : KSState) : KSState :=
  ⟨st.counter + 1, hmac serverSeed (macMsg clientSeed nonce st.counter)⟩

/-- `view.getUint32(0, false)` (`app.js` line 60): the first four bytes of the
buffer read as a big-endian unsigned 32-bit integer. -/
def beUint32 (b : List ℕ) : ℕ :=
  b.getD 0 0 * 2 ^ 24 + b.getD 1 0 * 2 ^ 16 + b.getD 2 0 * 2 ^ 8 + b.getD 3 0

/-- `nextFloat()` (`app.js` lines 55-63): refill when fewer than 4 bytes
remain, read a big-endian u32 from the front of the buffer, drop those 4 bytes
(`buffer.slice(4)`), and return `val / 0x100000000`. -/
def nextFloat (hmac : String → String → List ℕ) (s c : String) (n : ℕ)
    (st : KSState) : ℚ × KSState :=
  let st1 := if st.buffer.length < 4 then refill hmac s c n st else st
  ((beUint32 st1.buffer : ℚ) / (2 ^ 32 : ℚ), ⟨st1.counter, st1.buffer.drop 4⟩)

/-- The destructuring swap `[arr[i], arr[j]] = [arr[j], arr[i]]`
(`app.js` line 72) on a list. -/
def listSwap (arr : List ℕ) (i j : ℕ) : List ℕ :=
  (arr.set i (arr.getD j 0)).set j (arr.getD i 0)

/-- The Fisher-Yates loop of `shuffleDeterministic` (`app.js` lines 69-73):
for `i` from `n-1` down to `1`, draw a float `r`, set `j = Math.floor(r*(i+1))`
and swap positions `i` and `j`. The argument counts the remaining loop
iterations, so the match value `k+1` is the current loop variable `i`. -/
def fyLoop (hmac : String → String → List ℕ) (s c : String) (n : ℕ) :
    ℕ → List ℕ → KSState → List ℕ × KSState
  | 0, arr, st => (arr, st)
  | k + 1, arr, st =>
    let p := nextFloat hmac s c n st
    let j : ℕ := ⌊p.1 * ((k + 1 : ℕ) + 1 : ℚ)⌋₊
    fyLoop hmac s c n k (listSwap arr (k + 1) j) p.2

/-- `shuffleDeterministic(n, ks)` (`app.js` lines 67-75): start from the
identity array `[0, …, n-1]` and run the Fisher-Yates loop, threading the
keystream state. -/
def shuffleDeterministic (hmac : String → String → List ℕ) (s c : String)
    (n nn : ℕ) (st : KSState) : List ℕ × KSState :=
  fyLoop hmac s c n (nn - 1) (List.range nn) st

/-- The mine set of a round (`app.js` line 267):
`new Set(order.slice(0, minesCount))` for the order derived from a fresh
keystream on `(serverSeed, clientSeed, nonce)`. -/
def mineSetOf (hmac : String → String → List ℕ) (s c : String) (n k : ℕ) :
    Finset ℕ :=
  ((shuffleDeterministic hmac s c n 25 initKS).1.take k).toFinset

/-- All bytes currently buffered in a keystream state are genuine bytes
(below 256). This invariant is established by `ValidMac` and preserved by
`nextFloat`. -/
def GoodBuf (st : KSState) : Prop := ∀ b ∈ st.buffer, b < 256

/-- Keystream state after `k` calls of `nextFloat` starting from `initKS`. -/
def ksAfter (hmac : String → String → List ℕ) (s c : String) (n : ℕ) :
    ℕ → KSState
  | 0 => initKS
  | k + 1 => (nextFloat hmac s c n (ksAfter hmac s c n k)).2

/-- The `k`-th float the keystream yields (0-indexed). -/
def floatAt (hmac : String → String → List ℕ) (s c : String) (n k : ℕ) : ℚ :=
  (nextFloat hmac s c n (ksAfter hmac s c n k)).1

/-- Spec-side description of the float stream, following the spec's words:
the `k`-th float is the next 4 bytes of the MAC block stream — block `k / 8`
of `HMAC(serverSeed, clientSeed:nonce:blockCounter)`, at byte offset
`4 * (k % 8)` — read as a big-endian unsigned 32-bit integer and divided by
`2^32`. -/
def specFloat (hmac : String → String → List ℕ) (s c : String) (n k : ℕ) :
    ℚ :=
  (beUint32 ((hmac s (macMsg c n (k / 8))).drop (4 * (k % 8))) : ℚ) /
    (2 ^ 32 : ℚ)

/-- Closed form of the keystream state after `k` draws: the block counter has
advanced to `⌈k/8⌉` and the buffer holds the not-yet-consumed tail of the most
recent MAC block. -/
def ksClosed (hmac : String → String → List ℕ) (s c : String) (n k : ℕ) :
    KSState :=
  if k % 8 = 0 then ⟨k / 8, []⟩
  else ⟨k / 8 + 1, (hmac s (macMsg c n (k / 8))).drop (4 * (k % 8))⟩

/-- Spec-side Fisher-Yates loop, following the spec's words: for `i` from
`n-1` down to `1`, draw the next float `f t` of an indexed stream (`t` counts
draws so far), compute `j = ⌊f t * (i+1)⌋` and swap positions `i` and `j`. -/
def fySpecLoop (f : ℕ → ℚ) : ℕ → ℕ → List ℕ → List ℕ
  | _, 0, arr => arr
  | t, k + 1, arr =>
    fySpecLoop f (t + 1) k (listSwap arr (k + 1) ⌊f t * ((k + 1 : ℕ) + 1 : ℚ)⌋₊)

/-- The loop body of `probabilitySafePicks` (`app.js` lines 80-87): iterate
`i` from the given start while `i < r`, with `safeLeft = (total - mines) - i`
and `tilesLeft = total - i`; return `0` as soon as `safeLeft ≤ 0`, otherwise
multiply the accumulator by `safeLeft / tilesLeft`. -/
def probAux (total mines : ℤ) (r i : ℕ) (prob : ℚ) : ℚ :=
  if _h : i < r then
    let safeLeft : ℤ := total - mines - i
    let tilesLeft : ℤ := total - i
    if safeLeft ≤ 0 then 0
    else probAux total mines r (i + 1)
      (prob * ((safeLeft : ℚ) / (tilesLeft : ℚ)))
  else prob
termination_by r - i

/-- `probabilitySafePicks(r, mines, total = 25)` (`app.js` lines 78-88):
`1` for `r ≤ 0`, otherwise the loop product. -/
def probabilitySafePicks (r mines : ℤ) (total : ℤ := 25) : ℚ :=
  if r ≤ 0 then 1 else probAux total mines r.toNat 0 1

/-- `payoutMultiplier(r, mines, houseEdgePct)` (`app.js` lines 90-96): `1` for
`r ≤ 0`; `Infinity` (modelled as `⊤`) when the probability is `≤ 0`; otherwise
`(1 - edge) / prob` with `edge = max(0, min(0.99, houseEdgePct / 100))`. -/
def payoutMultiplier (r mines : ℤ) (houseEdgePct : ℚ) : WithTop ℚ :=
  if r ≤ 0 then 1
  else
    let prob := probabilitySafePicks r mines
    if prob ≤ 0 then ⊤
    else
      let edge := max 0 (min (99 / 100 : ℚ) (houseEdgePct / 100))
      (((1 - edge) / prob : ℚ) : WithTop ℚ)

/-- One factor of the safe-pick product: `(total − mines − k) / (total − k)`. -/
def specFactor (total mines : ℤ) (k : ℕ) : ℚ :=
  ((total - mines - k : ℤ) : ℚ) / ((total - k : ℤ) : ℚ)

/-- Spec-side closed form of the probability, following the spec's words:
`1` for `r ≤ 0`; `0` as soon as some step `i < r` has
`safeLeft = total − mines − i ≤ 0`; otherwise the product over `i = 0..r−1`
of `(total − mines − i) / (total − i)`. -/
def probSpec (r mines : ℤ) (total : ℤ := 25) : ℚ :=
  if r ≤ 0 then 1
  else if ∃ k ∈ Finset.range r.toNat, total - mines - (k : ℤ) ≤ 0 then 0
  else ∏ k ∈ Finset.range r.toNat, specFactor total mines k

/-- The mutable globals of `app.js` (lines 120-132) together with the DOM
state the handlers read: `disabled` is the set of tile indices whose buttons
are disabled, and `serverSeedText` models `serverSeedEl.textContent` (`none`
for the placeholder shown while the seed is hidden). -/
structure GameState where
  balance : ℚ
  roundActive : Bool
  currentBet : ℚ
  minesCount : ℕ
  houseEdgePct : ℚ
  serverSeed : Option String
  serverSeedHash : Option String
  clientSeed : Option String
  nonce : ℕ
  minesSet : Finset ℕ
  revealed : Finset ℕ
  safeReveals : ℕ
  disabled : Finset ℕ
  serverSeedText : Option String

/-- `onTileClick` (`app.js` lines 321-354) for a click on tile `idx`: no-op
when the round is inactive or the tile is already revealed/disabled; a mine
hit marks the tile, ends the round, reveals the whole board (`revealAll`,
lines 282-306, which leaves every tile disabled) and shows the server seed; a
safe hit marks and disables the tile and increments `safeReveals`. -/
def onTileClick (s : GameState) (idx : ℕ) : GameState :=
  if !s.roundActive then s
  else if idx ∈ s.revealed ∨ idx ∈ s.disabled then s
  else if idx ∈ s.minesSet then
    { s with revealed := insert idx s.revealed,
             roundActive := false,
             disabled := insert idx s.disabled ∪ Finset.range 25,
             serverSeedText := s.serverSeed }
  else
    { s with revealed := insert idx s.revealed,
             disabled := insert idx s.disabled,
             safeReveals := s.safeReveals + 1 }

/-- `doCashOut` (`app.js` lines 356-370): no-op when the round is inactive,
when no safe tile has been revealed (`safeReveals <= 0`, i.e. `= 0` on ℕ), or
when the multiplier is not finite; otherwise credit `bet × multiplier`, end
the round, reveal the board and show the server seed. -/
def doCashOut (s : GameState) : GameState :=
  if !s.roundActive then s
  else if s.safeReveals = 0 then s
  else if h : payoutMultiplier (s.safeReveals : ℤ) (s.minesCount : ℤ)
      s.houseEdgePct = ⊤ then s
  else
    { s with balance := s.balance + s.currentBet *
               ((payoutMultiplier (s.safeReveals : ℤ) (s.minesCount : ℤ)
                 s.houseEdgePct).untop h),
             roundActive := false,
             disabled := s.disabled ∪ Finset.range 25,
             serverSeedText := s.serverSeed }

/-- Bet clamping in `clampInputs` (`app.js` lines 226-228) on a numeric
input: non-positive (or unparseable) bets become 1.00. -/
def clampBet (b : ℚ) : ℚ := if b ≤ 0 then 1 else b

/-- Mine-count clamping in `clampInputs` (`app.js` lines 230-234). -/
def clampMines (m : ℤ) : ℕ := (max 1 (min 24 m)).toNat

/-- House-edge clamping in `clampInputs` (`app.js` lines 236-240). -/
def clampEdge (e : ℚ) : ℚ := max 0 (min 10 e)

/-- `startRound` (`app.js` lines 244-280), with the two random strings the
source draws (`randomHex(16)` for a missing client seed, `randomHex(32)` for
the server seed) passed in as parameters: clamp the inputs, reject when the
bet exceeds the balance, otherwise commit to the fresh server seed, bump the
nonce, derive the mine set, debit the bet and reset the round state (the
board reset of `resetBoard`, lines 197-210, leaves every tile enabled). -/
def startRound (H : String → String) (hmac : String → String → List ℕ)
    (betInput : ℚ) (minesInput : ℤ) (edgeInput : ℚ)
    (clientSeedInput : Option String) (freshClientSeed freshServerSeed : String)
    (s : GameState) : GameState :=
  if s.roundActive then s
  else if s.balance < clampBet betInput then
    { s with minesCount := clampMines minesInput,
             houseEdgePct := clampEdge edgeInput }
  else
    { balance := s.balance - clampBet betInput,
      roundActive := true,
      currentBet := clampBet betInput,
      minesCount := clampMines minesInput,
      houseEdgePct := clampEdge edgeInput,
      serverSeed := some freshServerSeed,
      serverSeedHash := some (H freshServerSeed),
      clientSeed := some (clientSeedInput.getD freshClientSeed),
      nonce := s.nonce + 1,
      minesSet := mineSetOf hmac freshServerSeed
        (clientSeedInput.getD freshClientSeed) (s.nonce + 1)
        (clampMines minesInput),
      revealed := ∅,
      safeReveals := 0,
      disabled := ∅,
      serverSeedText := none }

/-- The comparison at the heart of `verifyCommitment` (`app.js` lines
394-395): recompute the digest of the revealed seed and compare it for exact
equality with the stored commitment. -/
def checkCommitment (H : String → String) (seed digest : String) : Bool :=
  H seed == digest

/-- `verifyCommitment` (`app.js` lines 391-397): `none` when the guard
rejects (missing seed or hash, round still active, or seed not yet revealed
on screen); otherwise the boolean outcome of the digest comparison. -/
def verifyCommitment (H : String → String) (st : GameState) : Option Bool :=
  match st.serverSeed, st.serverSeedHash, st.serverSeedText with
  | some sd, some d, some _ =>
      if st.roundActive then none else some (checkCommitment H sd d)
  | _, _, _ => none

/-- Flip bit `b % 8` of the `i`-th character of a string: a single-bit
mutation of the seed's encoded form (hex seed characters are ASCII, so the
flipped code point is always a valid character). -/
def flipBit (s : String) (i b : ℕ) : String :=
  String.mk (s.data.mapIdx fun j c =>
    if j = i then Char.ofNat (c.toNat ^^^ 2 ^ (b % 8)) else c)

/-- A sequence of tile clicks, in order. -/
def playClicks (s : GameState) (l : List ℕ) : GameState := l.foldl onTileClick s

/-- Example MAC for concrete instantiations: a valid 32-byte block of zero
bytes for every key and message. -/
def exHmac : String → String → List ℕ := fun _ _ => List.replicate 32 0

/-- Example digest function for concrete instantiations: the identity
encoding, which is injective, so distinct seeds have distinct digests. -/
def exH : String → String := fun s => s

/-- Example idle state (fresh page, no round yet). -/
def exIdle : GameState :=
  { balance := 1000, roundActive := false, currentBet := 0, minesCount := 3,
    houseEdgePct := 3, serverSeed := none, serverSeedHash := none,
    clientSeed := none, nonce := 0, minesSet := ∅, revealed := ∅,
    safeReveals := 0, disabled := ∅, serverSeedText := none }

/-- Example mid-round state: an active round with mines `{0, 1, 2}` and tile
`5` already revealed safe. -/
def exActive : GameState :=
  { balance := 999, roundActive := true, currentBet := 1, minesCount := 3,
    houseEdgePct := 3, serverSeed := some "s", serverSeedHash := some "s",
    clientSeed := some "c", nonce := 1, minesSet := {0, 1, 2},
    revealed := {5}, safeReveals := 1, disabled := {5},
    serverSeedText := none }

/-- Example state at the start of an active round, no tile revealed yet. -/
def exFresh : GameState :=
  { exActive with revealed := ∅, disabled := ∅, safeReveals := 0 }

/-- Example settled state with the seed revealed on screen. -/
def exDone : GameState :=
  { exActive with roundActive := false, serverSeedText := some "s" }

theorem goodBuf_initKS : GoodBuf initKS := by
  intro b hb
  simp [initKS] at hb

theorem beUint32_lt (b : List ℕ) (hb : ∀ x ∈ b, x < 256) :
    beUint32 b < 2 ^ 32 := by
  have h : ∀ i : ℕ, b.getD i 0 ≤ 255 := by
    intro i
    rcases lt_or_le i b.length with h | h
    · have := hb (b.get ⟨i, h⟩) (b.get_mem i h)
      have hg : b.getD i 0 = b.get ⟨i, h⟩ := by
        simp [List.getD_eq_getElem?_getD, List.getElem?_eq_getElem h,
          List.get_eq_getElem]
      omega
    · have : b.getD i 0 = 0 := by
        simp [List.getD_eq_getElem?_getD, List.getElem?_eq_none h]
      omega
  have h0 := h 0
  have h1 := h 1
  have h2 := h 2
  have h3 := h 3
  unfold beUint32
  omega

theorem nextFloat_spec (hmac : String → String → List ℕ) (hv : ValidMac hmac)
    (s c : String) (n : ℕ) (st : KSState) (hg : GoodBuf st) :
    0 ≤ (nextFloat hmac s c n st).1 ∧ (nextFloat hmac s c n st).1 < 1 ∧
      GoodBuf (nextFloat hmac s c n st).2 := by
  unfold nextFloat
  set st1 := if st.buffer.length < 4 then refill hmac s c n st else st with hst1
  have hgood : GoodBuf st1 := by
    rw [hst1]
    split
    · intro b hb
      exact (hv s (macMsg c n st.counter)).2 b hb
    · exact hg
  refine ⟨by positivity, ?_, ?_⟩
  · have hlt := beUint32_lt st1.buffer hgood
    rw [div_lt_one (by positivity)]
    exact_mod_cast hlt
  · intro b hb
    exact hgood b (List.mem_of_mem_drop hb)

theorem listSwap_length (arr : List ℕ) (i j : ℕ) :
    (listSwap arr i j).length = arr.length := by
  simp [listSwap]

/-- Setting index `i` to a new value and appending the old value at `i` is a
permutation of appending the new value. -/
theorem set_append_old_perm :
    ∀ (l : List ℕ) (i : ℕ), i < l.length → ∀ b : ℕ,
      ((l.set i b) ++ [l.getD i 0]).Perm (l ++ [b])
  | [], i, h, b => by simp at h
  | x :: xs, 0, _, b => by
    simp only [List.set_cons_zero, List.getD_cons_zero, List.cons_append]
    have h1 : (b :: (xs ++ [x])).Perm (b :: (x :: xs)) :=
      (List.perm_append_singleton x xs).cons b
    have h2 : (b :: (x :: xs)).Perm (x :: (b :: xs)) := List.Perm.swap x b xs
    have h3 : (x :: (b :: xs)).Perm (x :: (xs ++ [b])) :=
      ((List.perm_append_singleton b xs).symm).cons x
    exact (h1.trans h2).trans h3
  | x :: xs, i + 1, h, b => by
    simp only [List.set_cons_succ, List.getD_cons_succ, List.cons_append]
    exact (set_append_old_perm xs i (by simpa using h) b).cons x

theorem set_getD_self (l : List ℕ) (i : ℕ) : l.set i (l.getD i 0) = l := by
  rcases lt_or_le i l.length with h | h
  · apply List.ext_getElem?
    intro n
    rcases eq_or_ne i n with rfl | hne
    · rw [List.getElem?_set_self h, List.getElem?_eq_getElem h]
      simp [List.getD_eq_getElem?_getD, List.getElem?_eq_getElem h]
    · exact List.getElem?_set_ne hne
  · exact List.set_eq_of_length_le h

theorem listSwap_perm (arr : List ℕ) (i j : ℕ) (hi : i < arr.length)
    (hj : j < arr.length) : (listSwap arr i j).Perm arr := by
  rcases eq_or_ne i j with rfl | hij
  · unfold listSwap
    rw [set_getD_self, set_getD_self]
  · have h1 := set_append_old_perm (arr.set i (arr.getD j 0)) j
      (by simpa using hj) (arr.getD i 0)
    have h2 := set_append_old_perm arr i hi (arr.getD j 0)
    have hgd : (arr.set i (arr.getD j 0)).getD j 0 = arr.getD j 0 := by
      simp [List.getD_eq_getElem?_getD, List.getElem?_set_ne hij]
    rw [hgd] at h1
    have hchain : ((listSwap arr i j) ++ [arr.getD j 0]).Perm (arr ++ [arr.getD j 0]) :=
      h1.trans h2
    exact (List.perm_append_right_iff [arr.getD j 0]).1 hchain

theorem fyLoop_perm (hmac : String → String → List ℕ) (hv : ValidMac hmac)
    (s c : String) (n : ℕ) :
    ∀ (k : ℕ) (arr : List ℕ) (st : KSState), GoodBuf st → k < arr.length →
      ((fyLoop hmac s c n k arr st).1).Perm arr
  | 0, arr, st, _, _ => List.Perm.refl arr
  | k + 1, arr, st, hg, hk => by
    unfold fyLoop
    obtain ⟨hnn, hlt, hg'⟩ := nextFloat_spec hmac hv s c n st hg
    set p := nextFloat hmac s c n st with hp
    have hj : (⌊p.1 * ((k + 1 : ℕ) + 1 : ℚ)⌋₊ : ℕ) < k + 2 := by
      have hpos : (0:ℚ) ≤ p.1 * ((k + 1 : ℕ) + 1 : ℚ) := by positivity
      rw [Nat.floor_lt hpos]
      push_cast
      nlinarith
    have hswap : (listSwap arr (k + 1) ⌊p.1 * ((k + 1 : ℕ) + 1 : ℚ)⌋₊).Perm arr :=
      listSwap_perm arr _ _ hk (by omega)
    have hlen : k < (listSwap arr (k + 1) ⌊p.1 * ((k + 1 : ℕ) + 1 : ℚ)⌋₊).length := by
      rw [listSwap_length]
      omega
    exact (fyLoop_perm hmac hv s c n k _ p.2 hg' hlen).trans hswap

theorem shuffle_perm (hmac : String → String → List ℕ) (hv : ValidMac hmac)
    (s c : String) (n : ℕ) :
    ((shuffleDeterministic hmac s c n 25 initKS).1).Perm (List.range 25) := by
  unfold shuffleDeterministic
  exact fyLoop_perm hmac hv s c n 24 (List.range 25) initKS goodBuf_initKS
    (by simp)

theorem nextFloat_short (hmac : String → String → List ℕ) (s c : String)
    (n : ℕ) (st : KSState) (h : st.buffer.length < 4) :
    nextFloat hmac s c n st =
      ((beUint32 (hmac s (macMsg c n st.counter)) : ℚ) / (2 ^ 32 : ℚ),
        ⟨st.counter + 1, (hmac s (macMsg c n st.counter)).drop 4⟩) := by
  unfold nextFloat
  rw [if_pos h]
  rfl

theorem nextFloat_long (hmac : String → String → List ℕ) (s c : String)
    (n : ℕ) (st : KSState) (h : ¬ st.buffer.length < 4) :
    nextFloat hmac s c n st =
      ((beUint32 st.buffer : ℚ) / (2 ^ 32 : ℚ),
        ⟨st.counter, st.buffer.drop 4⟩) := by
  unfold nextFloat
  rw [if_neg h]

theorem ksAfter_closed (hmac : String → String → List ℕ) (hv : ValidMac hmac)
    (s c : String) (n : ℕ) :
    ∀ k, ksAfter hmac s c n k = ksClosed hmac s c n k := by
  intro k
  induction k with
  | zero => simp [ksAfter, ksClosed, initKS]
  | succ k ih =>
    have hlen : ∀ m, (hmac s m).length = 32 := fun m => (hv s m).1
    rw [ksAfter, ih]
    rcases Nat.eq_zero_or_pos (k % 8) with h8 | h8
    · have hcl : ksClosed hmac s c n k = ⟨k / 8, []⟩ := by
        unfold ksClosed
        rw [if_pos h8]
      rw [hcl, nextFloat_short hmac s c n _ (by simp)]
      have hne : ¬ ((k + 1) % 8 = 0) := by omega
      have hmod : (k + 1) % 8 = 1 := by omega
      have hdiv : (k + 1) / 8 = k / 8 := by omega
      unfold ksClosed
      rw [if_neg hne, hmod, hdiv]
    · have h8' : ¬ (k % 8 = 0) := by omega
      have hcl : ksClosed hmac s c n k =
          ⟨k / 8 + 1, (hmac s (macMsg c n (k / 8))).drop (4 * (k % 8))⟩ := by
        unfold ksClosed
        rw [if_neg h8']
      have hnotlt :
          ¬ (((hmac s (macMsg c n (k / 8))).drop (4 * (k % 8))).length < 4) := by
        rw [List.length_drop, hlen]
        omega
      rw [hcl, nextFloat_long hmac s c n _ hnotlt]
      rcases Nat.lt_or_ge (k % 8) 7 with h7 | h7
      · have hne : ¬ ((k + 1) % 8 = 0) := by omega
        have hdiv : (k + 1) / 8 = k / 8 := by omega
        have hmod : (k + 1) % 8 = k % 8 + 1 := by omega
        unfold ksClosed
        rw [if_neg hne, hdiv, hmod]
        simp only [List.drop_drop]
        have h4 : 4 * (k % 8) + 4 = 4 * (k % 8 + 1) := by ring
        rw [h4]
      · have hne : (k + 1) % 8 = 0 := by omega
        have hdiv : (k + 1) / 8 = k / 8 + 1 := by omega
        unfold ksClosed
        rw [if_pos hne, hdiv]
        simp only [List.drop_drop]
        congr 1
        apply List.drop_eq_nil_of_le
        rw [hlen]
        omega

theorem goodBuf_ksAfter (hmac : String → String → List ℕ) (hv : ValidMac hmac)
    (s c : String) (n : ℕ) : ∀ k, GoodBuf (ksAfter hmac s c n k) := by
  intro k
  induction k with
  | zero => exact goodBuf_initKS
  | succ k ih => exact (nextFloat_spec hmac hv s c n _ ih).2.2

theorem floatAt_eq_specFloat (hmac : String → String → List ℕ)
    (hv : ValidMac hmac) (s c : String) (n : ℕ) (k : ℕ) :
    floatAt hmac s c n k = specFloat hmac s c n k := by
  unfold floatAt specFloat
  rw [ksAfter_closed hmac hv s c n k]
  have hlen : ∀ m, (hmac s m).length = 32 := fun m => (hv s m).1
  rcases Nat.eq_zero_or_pos (k % 8) with h8 | h8
  · have hcl : ksClosed hmac s c n k = ⟨k / 8, []⟩ := by
      unfold ksClosed
      rw [if_pos h8]
    rw [hcl, nextFloat_short hmac s c n _ (by simp), h8]
    simp
  · have h8' : ¬ (k % 8 = 0) := by omega
    have hcl : ksClosed hmac s c n k =
        ⟨k / 8 + 1, (hmac s (macMsg c n (k / 8))).drop (4 * (k % 8))⟩ := by
      unfold ksClosed
      rw [if_neg h8']
    have hnotlt :
        ¬ (((hmac s (macMsg c n (k / 8))).drop (4 * (k % 8))).length < 4) := by
      rw [List.length_drop, hlen]
      omega
    rw [hcl, nextFloat_long hmac s c n _ hnotlt]

theorem floatAt_bounds (hmac : String → String → List ℕ) (hv : ValidMac hmac)
    (s c : String) (n : ℕ) (k : ℕ) :
    0 ≤ floatAt hmac s c n k ∧ floatAt hmac s c n k < 1 := by
  have h := nextFloat_spec hmac hv s c n (ksAfter hmac s c n k)
    (goodBuf_ksAfter hmac hv s c n k)
  exact ⟨h.1, h.2.1⟩

theorem fyLoop_eq_spec (hmac : String → String → List ℕ) (s c : String)
    (n : ℕ) :
    ∀ (k t : ℕ) (arr : List ℕ),
      (fyLoop hmac s c n k arr (ksAfter hmac s c n t)).1 =
        fySpecLoop (floatAt hmac s c n) t k arr
  | 0, t, arr => rfl
  | k + 1, t, arr => by
    rw [fyLoop, fySpecLoop]
    exact fyLoop_eq_spec hmac s c n k (t + 1) _

theorem shuffle_eq_spec (hmac : String → String → List ℕ) (s c : String)
    (n nn : ℕ) :
    (shuffleDeterministic hmac s c n nn initKS).1 =
      fySpecLoop (floatAt hmac s c n) 0 (nn - 1) (List.range nn) := by
  unfold shuffleDeterministic
  exact fyLoop_eq_spec hmac s c n (nn - 1) 0 (List.range nn)

theorem probAux_eq (total mines : ℤ) (r i : ℕ) (p : ℚ) :
    probAux total mines r i p =
      if ∃ k ∈ Finset.Ico i r, total - mines - (k : ℤ) ≤ 0 then 0
      else p * ∏ k ∈ Finset.Ico i r, specFactor total mines k := by
  by_cases h : i < r
  · rw [probAux]
    simp only [h, dif_pos]
    by_cases hs : total - mines - (i : ℤ) ≤ 0
    · rw [if_pos hs, if_pos ⟨i, Finset.mem_Ico.2 ⟨le_refl i, h⟩, hs⟩]
    · rw [if_neg hs, probAux_eq total mines r (i + 1)]
      have hiff : (∃ k ∈ Finset.Ico (i + 1) r, total - mines - (k : ℤ) ≤ 0) ↔
          (∃ k ∈ Finset.Ico i r, total - mines - (k : ℤ) ≤ 0) := by
        constructor
        · rintro ⟨k, hk, hk0⟩
          rw [Finset.mem_Ico] at hk
          exact ⟨k, Finset.mem_Ico.2 ⟨by omega, hk.2⟩, hk0⟩
        · rintro ⟨k, hk, hk0⟩
          rw [Finset.mem_Ico] at hk
          have hki : k ≠ i := by
            rintro rfl
            exact hs hk0
          exact ⟨k, Finset.mem_Ico.2 ⟨by omega, hk.2⟩, hk0⟩
      rw [if_congr hiff rfl rfl]
      by_cases hex : ∃ k ∈ Finset.Ico i r, total - mines - (k : ℤ) ≤ 0
      · rw [if_pos hex, if_pos hex]
      · rw [if_neg hex, if_neg hex]
        rw [Finset.prod_eq_prod_Ico_succ_bot h (specFactor total mines)]
        unfold specFactor
        ring
  · rw [probAux]
    simp only [h, dif_neg, not_false_iff]
    have hempty : Finset.Ico i r = ∅ := by
      rw [Finset.Ico_eq_empty_iff]
      omega
    rw [hempty]
    simp
termination_by r - i

theorem probabilitySafePicks_eq_probSpec (r mines : ℤ) :
    probabilitySafePicks r mines = probSpec r mines := by
  unfold probabilitySafePicks probSpec
  by_cases h : r ≤ 0
  · rw [if_pos h, if_pos h]
  · rw [if_neg h, if_neg h, probAux_eq, ← Finset.range_eq_Ico, one_mul]

theorem probabilitySafePicks_nonneg (r mines : ℤ) :
    0 ≤ probabilitySafePicks r mines := by
  rw [probabilitySafePicks_eq_probSpec]
  unfold probSpec
  by_cases h : r ≤ 0
  · rw [if_pos h]
    norm_num
  · rw [if_neg h]
    by_cases hex : ∃ k ∈ Finset.range r.toNat, 25 - mines - (k : ℤ) ≤ 0
    · rw [if_pos hex]
    · rw [if_neg hex]
      push_neg at hex
      by_cases hden : ∃ k ∈ Finset.range r.toNat, (25 : ℤ) - (k : ℤ) < 0
      · obtain ⟨k, hk, hk25⟩ := hden
        rw [Finset.mem_range] at hk
        have h25 : (25 : ℕ) ∈ Finset.range r.toNat := by
          rw [Finset.mem_range]
          omega
        rw [Finset.prod_eq_zero h25]
        unfold specFactor
        norm_num
      · push_neg at hden
        apply Finset.prod_nonneg
        intro k hk
        unfold specFactor
        apply div_nonneg
        · have := hex k hk
          have h0 : (0 : ℤ) ≤ 25 - mines - (k : ℤ) := by omega
          exact_mod_cast h0
        · have := hden k hk
          exact_mod_cast this

theorem specFactor_pos (m : ℤ) (hm : 0 ≤ m) (k : ℕ) (hk : (k : ℤ) < 25 - m) :
    0 < specFactor 25 m k := by
  unfold specFactor
  apply div_pos
  · have h : (0 : ℤ) < 25 - m - k := by omega
    exact_mod_cast h
  · have h : (0 : ℤ) < 25 - k := by omega
    exact_mod_cast h

theorem specFactor_le_one (m : ℤ) (hm : 0 ≤ m) (k : ℕ) (hk : (k : ℤ) < 25 - m) :
    specFactor 25 m k ≤ 1 := by
  unfold specFactor
  rw [div_le_one (by exact_mod_cast (by omega : (0 : ℤ) < 25 - k))]
  have h : (25 - m - k : ℤ) ≤ 25 - k := by omega
  exact_mod_cast h

theorem prob_eq_prod_of_le (m r : ℤ) (hr : 0 < r) (hle : r ≤ 25 - m) :
    probabilitySafePicks r m = ∏ k ∈ Finset.range r.toNat, specFactor 25 m k := by
  rw [probabilitySafePicks_eq_probSpec]
  unfold probSpec
  rw [if_neg (not_le.2 hr), if_neg]
  rintro ⟨k, hk, hk0⟩
  rw [Finset.mem_range] at hk
  omega

theorem prob_pos_of_le (m r : ℤ) (hm : 0 ≤ m) (hr : 0 < r) (hle : r ≤ 25 - m) :
    0 < probabilitySafePicks r m := by
  rw [prob_eq_prod_of_le m r hr hle]
  apply Finset.prod_pos
  intro k hk
  rw [Finset.mem_range] at hk
  exact specFactor_pos m hm k (by omega)

theorem prob_zero_of_gt (m r : ℤ) (hr : 0 < r) (hgt : 25 - m < r) :
    probabilitySafePicks r m = 0 := by
  rw [probabilitySafePicks_eq_probSpec]
  unfold probSpec
  rw [if_neg (not_le.2 hr), if_pos]
  rcases le_or_lt (25 - m) 0 with hm0 | hm0
  · exact ⟨0, Finset.mem_range.2 (by omega), by push_cast; omega⟩
  · refine ⟨(25 - m).toNat, Finset.mem_range.2 (by omega), ?_⟩
    have h : ((25 - m).toNat : ℤ) = 25 - m := Int.toNat_of_nonneg (by omega)
    omega

theorem prob_tail_le_one (m : ℤ) (hm : 0 ≤ m) (a b : ℕ)
    (hb : (b : ℤ) ≤ 25 - m) :
    (∀ k ∈ Finset.Ico a b, 0 ≤ specFactor 25 m k) ∧
      ∏ k ∈ Finset.Ico a b, specFactor 25 m k ≤ 1 := by
  have hfac : ∀ k ∈ Finset.Ico a b, 0 ≤ specFactor 25 m k := by
    intro k hk
    rw [Finset.mem_Ico] at hk
    exact le_of_lt (specFactor_pos m hm k (by omega))
  refine ⟨hfac, Finset.prod_le_one hfac ?_⟩
  intro k hk
  rw [Finset.mem_Ico] at hk
  exact specFactor_le_one m hm k (by omega)

theorem prob_antitone (m r1 r2 : ℤ) (hm : 0 ≤ m) (h1 : 0 < r1)
    (h12 : r1 ≤ r2) :
    probabilitySafePicks r2 m ≤ probabilitySafePicks r1 m := by
  rcases le_or_lt r2 (25 - m) with hle | hgt
  · rw [prob_eq_prod_of_le m r1 h1 (le_trans h12 hle),
      prob_eq_prod_of_le m r2 (by omega) hle]
    have hmono : r1.toNat ≤ r2.toNat := by omega
    rw [← Finset.prod_range_mul_prod_Ico (specFactor 25 m) hmono]
    obtain ⟨hfac, htail⟩ := prob_tail_le_one m hm r1.toNat r2.toNat (by omega)
    have hhead : 0 ≤ ∏ k ∈ Finset.range r1.toNat, specFactor 25 m k := by
      apply Finset.prod_nonneg
      intro k hk
      rw [Finset.mem_range] at hk
      exact le_of_lt (specFactor_pos m hm k (by omega))
    exact mul_le_of_le_one_right hhead htail
  · rw [prob_zero_of_gt m r2 (by omega) hgt]
    exact probabilitySafePicks_nonneg r1 m

theorem prob_le_factor0 (m r : ℤ) (hm : 0 ≤ m) (hr : 0 < r)
    (hle : r ≤ 25 - m) :
    probabilitySafePicks r m ≤ specFactor 25 m 0 := by
  rw [prob_eq_prod_of_le m r hr hle]
  have hsplit : r.toNat = 1 + (r.toNat - 1) := by omega
  rw [hsplit, Finset.prod_range_add]
  simp only [Finset.prod_range_one]
  have hfac0 : 0 ≤ specFactor 25 m 0 :=
    le_of_lt (specFactor_pos m hm 0 (by omega))
  apply mul_le_of_le_one_right hfac0
  apply Finset.prod_le_one
  · intro x hx
    rw [Finset.mem_range] at hx
    exact le_of_lt (specFactor_pos m hm (1 + x) (by omega))
  · intro x hx
    rw [Finset.mem_range] at hx
    exact specFactor_le_one m hm (1 + x) (by omega)

theorem edge_clamp_bounds (e : ℚ) :
    0 ≤ max 0 (min (99 / 100 : ℚ) (e / 100)) ∧
      max 0 (min (99 / 100 : ℚ) (e / 100)) ≤ 99 / 100 := by
  constructor
  · exact le_max_left 0 _
  · apply max_le (by norm_num)
    exact min_le_left _ _

theorem edge_clamp_eq (e : ℚ) (he0 : 0 ≤ e) (he10 : e ≤ 10) :
    max 0 (min (99 / 100 : ℚ) (e / 100)) = e / 100 := by
  rw [min_eq_right (by linarith), max_eq_right (by positivity)]

theorem payoutMultiplier_of_pos (r m : ℤ) (e : ℚ) (hr : 0 < r)
    (hp : 0 < probabilitySafePicks r m) :
    payoutMultiplier r m e =
      (((1 - max 0 (min (99 / 100 : ℚ) (e / 100))) /
          probabilitySafePicks r m : ℚ) : WithTop ℚ) := by
  unfold payoutMultiplier
  rw [if_neg (not_le.2 hr), if_neg (not_le.2 hp)]

theorem payoutMultiplier_of_zero (r m : ℤ) (e : ℚ) (hr : 0 < r)
    (hp : probabilitySafePicks r m ≤ 0) :
    payoutMultiplier r m e = ⊤ := by
  unfold payoutMultiplier
  rw [if_neg (not_le.2 hr), if_pos hp]

theorem onTileClick_inactive (s : GameState) (idx : ℕ)
    (h : s.roundActive = false) : onTileClick s idx = s := by
  unfold onTileClick
  rw [h]
  simp

theorem onTileClick_already (s : GameState) (idx : ℕ)
    (h : idx ∈ s.revealed ∨ idx ∈ s.disabled) : onTileClick s idx = s := by
  unfold onTileClick
  rcases hs : s.roundActive with _ | _
  · simp
  · simp only [Bool.not_true, Bool.false_eq_true, if_false]
    rw [if_pos h]

theorem onTileClick_mine (s : GameState) (idx : ℕ) (ha : s.roundActive = true)
    (hfresh : ¬ (idx ∈ s.revealed ∨ idx ∈ s.disabled)) (hm : idx ∈ s.minesSet) :
    onTileClick s idx =
      { s with revealed := insert idx s.revealed,
               roundActive := false,
               disabled := insert idx s.disabled ∪ Finset.range 25,
               serverSeedText := s.serverSeed } := by
  unfold onTileClick
  rw [ha]
  simp only [Bool.not_true, Bool.false_eq_true, if_false]
  rw [if_neg hfresh, if_pos hm]

theorem onTileClick_safe (s : GameState) (idx : ℕ) (ha : s.roundActive = true)
    (hfresh : ¬ (idx ∈ s.revealed ∨ idx ∈ s.disabled)) (hm : idx ∉ s.minesSet) :
    onTileClick s idx =
      { s with revealed := insert idx s.revealed,
               disabled := insert idx s.disabled,
               safeReveals := s.safeReveals + 1 } := by
  unfold onTileClick
  rw [ha]
  simp only [Bool.not_true, Bool.false_eq_true, if_false]
  rw [if_neg hfresh, if_neg hm]

theorem doCashOut_inactive (s : GameState) (h : s.roundActive = false) :
    doCashOut s = s := by
  unfold doCashOut
  rw [h]
  simp

theorem doCashOut_zero (s : GameState) (h : s.safeReveals = 0) :
    doCashOut s = s := by
  unfold doCashOut
  rcases hs : s.roundActive with _ | _
  · simp
  · simp only [Bool.not_true, Bool.false_eq_true, if_false]
    rw [if_pos h]

theorem startRound_success (H : String → String)
    (hmac : String → String → List ℕ) (betIn : ℚ) (minesIn : ℤ) (edgeIn : ℚ)
    (csIn : Option String) (fc fs : String) (s₀ : GameState)
    (h₀ : s₀.roundActive = false) (hbal : clampBet betIn ≤ s₀.balance) :
    startRound H hmac betIn minesIn edgeIn csIn fc fs s₀ =
      { balance := s₀.balance - clampBet betIn,
        roundActive := true,
        currentBet := clampBet betIn,
        minesCount := clampMines minesIn,
        houseEdgePct := clampEdge edgeIn,
        serverSeed := some fs,
        serverSeedHash := some (H fs),
        clientSeed := some (csIn.getD fc),
        nonce := s₀.nonce + 1,
        minesSet := mineSetOf hmac fs (csIn.getD fc) (s₀.nonce + 1)
          (clampMines minesIn),
        revealed := ∅,
        safeReveals := 0,
        disabled := ∅,
        serverSeedText := none } := by
  unfold startRound
  rw [if_neg (by simp [h₀]), if_neg (not_lt.2 hbal)]

theorem doCashOut_fields (s : GameState) (ha : s.roundActive = true)
    (hs0 : ¬ s.safeReveals = 0)
    (hfin : payoutMultiplier (s.safeReveals : ℤ) (s.minesCount : ℤ)
      s.houseEdgePct ≠ ⊤) :
    (doCashOut s).roundActive = false ∧
    (doCashOut s).serverSeed = s.serverSeed ∧
    (doCashOut s).serverSeedHash = s.serverSeedHash ∧
    (doCashOut s).serverSeedText = s.serverSeed := by
  unfold doCashOut
  rw [ha]
  simp only [Bool.not_true, Bool.false_eq_true, if_false]
  rw [if_neg hs0, dif_neg hfin]
  exact ⟨rfl, rfl, rfl, rfl⟩

theorem verifyCommitment_eq (H : String → String) (st : GameState)
    (sd d txt : String) (hs : st.serverSeed = some sd)
    (hh : st.serverSeedHash = some d) (ht : st.serverSeedText = some txt)
    (hact : st.roundActive = false) :
    verifyCommitment H st = some (checkCommitment H sd d) := by
  unfold verifyCommitment
  rw [hs, hh, ht, hact]
  simp

theorem playClicks_safe :
    ∀ (l : List ℕ) (s : GameState), s.roundActive = true → l.Nodup →
      (∀ x ∈ l, x ∉ s.minesSet ∧ x ∉ s.revealed ∧ x ∉ s.disabled) →
      (playClicks s l).roundActive = true ∧
      (playClicks s l).safeReveals = s.safeReveals + l.length ∧
      (playClicks s l).minesSet = s.minesSet ∧
      (playClicks s l).minesCount = s.minesCount ∧
      (playClicks s l).houseEdgePct = s.houseEdgePct ∧
      (playClicks s l).serverSeed = s.serverSeed ∧
      (playClicks s l).serverSeedHash = s.serverSeedHash ∧
      (playClicks s l).serverSeedText = s.serverSeedText ∧
      (playClicks s l).currentBet = s.currentBet
  | [], s, ha, _, _ => by
      refine ⟨ha, by simp [playClicks], rfl, rfl, rfl, rfl, rfl, rfl, rfl⟩
  | x :: xs, s, ha, hnd, hcond => by
      have hx := hcond x (List.mem_cons_self x xs)
      have hfresh : ¬ (x ∈ s.revealed ∨ x ∈ s.disabled) := by
        rintro (h | h)
        exacts [hx.2.1 h, hx.2.2 h]
      have hstep := onTileClick_safe s x ha hfresh hx.1
      have hnd' := List.nodup_cons.1 hnd
      have hxs : ∀ y ∈ xs, y ∉ (onTileClick s x).minesSet ∧
          y ∉ (onTileClick s x).revealed ∧ y ∉ (onTileClick s x).disabled := by
        intro y hy
        have hycond := hcond y (List.mem_cons_of_mem x hy)
        have hyx : y ≠ x := by
          rintro rfl
          exact hnd'.1 hy
        rw [hstep]
        refine ⟨hycond.1, ?_, ?_⟩
        · show y ∉ insert x s.revealed
          simp [Finset.mem_insert, hyx, hycond.2.1]
        · show y ∉ insert x s.disabled
          simp [Finset.mem_insert, hyx, hycond.2.2]
      have hactive1 : (onTileClick s x).roundActive = true := by
        rw [hstep]
        exact ha
      have ih := playClicks_safe xs (onTileClick s x) hactive1 hnd'.2 hxs
      obtain ⟨i1, i2, i3, i4, i5, i6, i7, i8, i9⟩ := ih
      have e2 : (onTileClick s x).safeReveals = s.safeReveals + 1 := by
        rw [hstep]
      have e3 : (onTileClick s x).minesSet = s.minesSet := by rw [hstep]
      have e4 : (onTileClick s x).minesCount = s.minesCount := by rw [hstep]
      have e5 : (onTileClick s x).houseEdgePct = s.houseEdgePct := by
        rw [hstep]
      have e6 : (onTileClick s x).serverSeed = s.serverSeed := by rw [hstep]
      have e7 : (onTileClick s x).serverSeedHash = s.serverSeedHash := by
        rw [hstep]
      have e8 : (onTileClick s x).serverSeedText = s.serverSeedText := by
        rw [hstep]
      have e9 : (onTileClick s x).currentBet = s.currentBet := by rw [hstep]
      have hfold : playClicks s (x :: xs) = playClicks (onTileClick s x) xs :=
        rfl
      rw [hfold]
      refine ⟨i1, ?_, i3.trans e3, i4.trans e4, i5.trans e5, i6.trans e6,
        i7.trans e7, i8.trans e8, i9.trans e9⟩
      rw [i2, e2, List.length_cons]
      omega

theorem mineSet_spec (hmac : String → String → List ℕ) (hv : ValidMac hmac)
    (s c : String) (n k : ℕ) (hk : k ≤ 25) :
    (mineSetOf hmac s c n k).card = k ∧
      ∀ x ∈ mineSetOf hmac s c n k, x < 25 := by
  have hperm := shuffle_perm hmac hv s c n
  have hnodup : (shuffleDeterministic hmac s c n 25 initKS).1.Nodup :=
    hperm.nodup_iff.2 (List.nodup_range 25)
  have hlen : (shuffleDeterministic hmac s c n 25 initKS).1.length = 25 := by
    rw [hperm.length_eq, List.length_range]
  have htake : ((shuffleDeterministic hmac s c n 25 initKS).1.take k).Nodup :=
    List.Nodup.sublist (List.take_sublist k _) hnodup
  constructor
  · unfold mineSetOf
    rw [List.toFinset_card_of_nodup htake, List.length_take, hlen]
    omega
  · intro x hx
    unfold mineSetOf at hx
    rw [List.mem_toFinset] at hx
    have hmem := List.mem_of_mem_take hx
    have := hperm.mem_iff.1 hmem
    exact List.mem_range.1 this

theorem clampMines_bounds (m : ℤ) :
    1 ≤ clampMines m ∧ clampMines m ≤ 24 := by
  unfold clampMines
  omega

theorem validMac_exHmac : ValidMac exHmac := by
  intro k m
  refine ⟨by simp [exHmac], ?_⟩
  intro b hb
  simp [exHmac] at hb
  omega

theorem exShuffle :
    (shuffleDeterministic exHmac "s" "c" 1 25 initKS).1 =
      [1, 2, 3, 4, 5, 6, 7, 8, 9, 10, 11, 12, 13, 14, 15, 16, 17, 18, 19, 20,
        21, 22, 23, 24, 0] := by
  simp [shuffleDeterministic, fyLoop, nextFloat, refill, beUint32, listSwap,
    initKS, macMsg, exHmac, List.range_succ]

theorem exMineSet : mineSetOf exHmac "s" "c" 1 3 = ({1, 2, 3} : Finset ℕ) := by
  unfold mineSetOf
  rw [exShuffle]
  decide

theorem exStart_minesSet :
    (startRound exH exHmac 1 3 3 (some "c") "f" "s" exIdle).minesSet =
      ({1, 2, 3} : Finset ℕ) := by
  rw [startRound_success exH exHmac 1 3 3 (some "c") "f" "s" exIdle rfl
    (by norm_num [clampBet, exIdle])]
  show mineSetOf exHmac "s" ((some "c").getD "f") (exIdle.nonce + 1)
    (clampMines 3) = ({1, 2, 3} : Finset ℕ)
  have hc : clampMines 3 = 3 := by decide
  have hn : exIdle.nonce + 1 = 1 := rfl
  rw [hc, hn]
  exact exMineSet

theorem prob_eval_1_1 : probabilitySafePicks 1 1 = 24 / 25 := by
  rw [prob_eq_prod_of_le 1 1 (by norm_num) (by norm_num)]
  have h1 : (1 : ℤ).toNat = 1 := rfl
  rw [h1, Finset.prod_range_one]
  unfold specFactor
  norm_num

theorem payout_eval_0_1_10 : payoutMultiplier 0 1 10 = 1 := by
  unfold payoutMultiplier
  rw [if_pos le_rfl]

theorem payout_eval_1_1_10 :
    payoutMultiplier 1 1 10 = ((15 / 16 : ℚ) : WithTop ℚ) := by
  rw [payoutMultiplier_of_pos 1 1 10 (by norm_num)
    (by rw [prob_eval_1_1]; norm_num)]
  rw [prob_eval_1_1, edge_clamp_eq 10 (by norm_num) (by norm_num)]
  rw [WithTop.coe_eq_coe]
  norm_num

/-- C1: for every serverSeed, clientSeed and nonce, the derivation of the
permutation is deterministic — two runs of
`shuffleDeterministic(25, Keystream(serverSeed, clientSeed, nonce))` with
identical `(serverSeed, clientSeed, nonce)` inputs produce identical
permutations, and hence identical mine sets; the result is a pure function of
nothing but those three inputs (and the fixed external MAC primitive). -/
theorem C1_shuffle_deterministic (hmac : String → String → List ℕ)
    (s₁ s₂ c₁ c₂ : String) (n₁ n₂ k : ℕ)
    (hs : s₁ = s₂) (hc : c₁ = c₂) (hn : n₁ = n₂) :
    (shuffleDeterministic hmac s₁ c₁ n₁ 25 initKS).1 =
      (shuffleDeterministic hmac s₂ c₂ n₂ 25 initKS).1 ∧
    mineSetOf hmac s₁ c₁ n₁ k = mineSetOf hmac s₂ c₂ n₂ k := by
  subst hs
  subst hc
  subst hn
  exact ⟨rfl, rfl⟩

theorem C1_shuffle_deterministic_witness :
    (shuffleDeterministic exHmac "s" "c" 1 25 initKS).1 =
      (shuffleDeterministic exHmac "s" "c" 1 25 initKS).1 ∧
    mineSetOf exHmac "s" "c" 1 3 = mineSetOf exHmac "s" "c" 1 3 :=
  C1_shuffle_deterministic exHmac "s" "s" "c" "c" 1 1 3 rfl rfl rfl

/-- C2: for every hazardCount in [1,24] and every keystream (any seeds and
nonce, any valid MAC), `shuffleDeterministic(25, keystream)` returns a
permutation of `{0..24}`, and the mine set formed from its first hazardCount
elements has exactly hazardCount distinct elements, all in [0,24]. -/
theorem C2_mine_set_size (hmac : String → String → List ℕ)
    (hv : ValidMac hmac) (s c : String) (n k : ℕ)
    (hk1 : 1 ≤ k) (hk2 : k ≤ 24) :
    ((shuffleDeterministic hmac s c n 25 initKS).1).Perm (List.range 25) ∧
    (mineSetOf hmac s c n k).card = k ∧
    ∀ x ∈ mineSetOf hmac s c n k, x ≤ 24 := by
  refine ⟨shuffle_perm hmac hv s c n,
    (mineSet_spec hmac hv s c n k (by omega)).1, ?_⟩
  intro x hx
  have := (mineSet_spec hmac hv s c n k (by omega)).2 x hx
  omega

theorem C2_mine_set_size_witness :
    ((shuffleDeterministic exHmac "s" "c" 1 25 initKS).1).Perm
      (List.range 25) ∧
    (mineSetOf exHmac "s" "c" 1 3).card = 3 ∧
    ∀ x ∈ mineSetOf exHmac "s" "c" 1 3, x ≤ 24 :=
  C2_mine_set_size exHmac validMac_exHmac "s" "c" 1 3 (by norm_num)
    (by norm_num)

/-- C3: for all integers r and mines (total = 25), `probabilitySafePicks`
returns 1 when r ≤ 0 and otherwise the short-circuiting product over
`i = 0..r-1` of `(25 - mines - i) / (25 - i)` — exactly 0 as soon as some
step's `safeLeft = 25 - mines - i` is ≤ 0 (this is `probSpec`, the spec-side
closed form); in particular for r > 0 the result is 0 whenever
`r > 25 - mines`. -/
theorem C3_probability_closed_form (r mines : ℤ) :
    probabilitySafePicks r mines = probSpec r mines ∧
    (0 < r → 25 - mines < r → probabilitySafePicks r mines = 0) :=
  ⟨probabilitySafePicks_eq_probSpec r mines,
    fun hr hgt => prob_zero_of_gt mines r hr hgt⟩

theorem C3_probability_closed_form_witness :
    probabilitySafePicks 26 1 = probSpec 26 1 ∧
    probabilitySafePicks 26 1 = 0 :=
  ⟨(C3_probability_closed_form 26 1).1,
    (C3_probability_closed_form 26 1).2 (by norm_num) (by norm_num)⟩

/-- C4: for all integers r and mines and every houseEdgePct,
`payoutMultiplier` returns 1 when r ≤ 0; returns `Infinity` (here `⊤`) when
`probabilitySafePicks(r, mines)` is 0; and otherwise returns
`(1 - edge) / probabilitySafePicks(r, mines)` where `edge` is
`houseEdgePct/100` clamped into [0, 0.99] (equivalently `houseEdgePct`
clamped into [0,99] percent). (Over ℚ the probability is never negative, so
the source's `prob <= 0` test coincides with `prob = 0`.) -/
theorem C4_multiplier_def (r mines : ℤ) (e : ℚ) :
    (r ≤ 0 → payoutMultiplier r mines e = 1) ∧
    (0 < r → probabilitySafePicks r mines = 0 →
      payoutMultiplier r mines e = ⊤) ∧
    (0 < r → probabilitySafePicks r mines ≠ 0 →
      payoutMultiplier r mines e =
        (((1 - max 0 (min (99 / 100 : ℚ) (e / 100))) /
            probabilitySafePicks r mines : ℚ) : WithTop ℚ)) := by
  refine ⟨?_, ?_, ?_⟩
  · intro hr
    unfold payoutMultiplier
    rw [if_pos hr]
  · intro hr hp
    exact payoutMultiplier_of_zero r mines e hr (le_of_eq hp)
  · intro hr hp
    have hpos : 0 < probabilitySafePicks r mines :=
      lt_of_le_of_ne (probabilitySafePicks_nonneg r mines) (Ne.symm hp)
    exact payoutMultiplier_of_pos r mines e hr hpos

theorem C4_multiplier_def_witness :
    payoutMultiplier 1 3 3 =
      (((1 - max 0 (min (99 / 100 : ℚ) (3 / 100))) /
          probabilitySafePicks 1 3 : ℚ) : WithTop ℚ) :=
  (C4_multiplier_def 1 3 3).2.2 (by norm_num)
    (prob_pos_of_le 3 1 (by norm_num) (by norm_num) (by norm_num)).ne'

/-- C5 (counterexample): the claimed monotonicity fails at the step from
r = 0 to r = 1 — with mines = 1 in [1,24] and houseEdgePct = 10 (inside the
allowed range), `payoutMultiplier 0 1 10 = 1` but
`payoutMultiplier 1 1 10 = 15/16 < 1`, so the multiplier is not
non-decreasing in r for 0 ≤ r1 ≤ r2. -/
theorem C5_counterexample :
    (0 : ℤ) ≤ 1 ∧ (1 : ℤ) ≤ 1 ∧ (1 : ℤ) ≤ 24 ∧
      ¬ (payoutMultiplier 0 1 10 ≤ payoutMultiplier 1 1 10) := by
  refine ⟨by norm_num, le_refl 1, by norm_num, ?_⟩
  rw [payout_eval_0_1_10, payout_eval_1_1_10]
  intro hcontra
  rw [← WithTop.coe_one, WithTop.coe_le_coe] at hcontra
  norm_num at hcontra

/-- C5 (amended): for every fixed mines in [1,24] and every fixed
houseEdgePct, `payoutMultiplier(r, mines, houseEdgePct)` is monotonically
non-decreasing in r on r ≥ 1 (with `⊤` greater than every finite value): for
all 1 ≤ r1 ≤ r2 the multiplier at r1 is at most the multiplier at r2. The
step from r = 0 (multiplier 1) to r = 1 can decrease whenever
`1 - edge < (25 - mines)/25`, e.g. mines = 1, houseEdgePct = 10. -/
theorem C5_monotone_amended (mines r1 r2 : ℤ) (e : ℚ)
    (hm1 : 1 ≤ mines) (hm2 : mines ≤ 24) (h1 : 1 ≤ r1) (h12 : r1 ≤ r2) :
    payoutMultiplier r1 mines e ≤ payoutMultiplier r2 mines e := by
  have hm0 : (0 : ℤ) ≤ mines := by omega
  have h2pos : (0 : ℤ) < r2 := by omega
  by_cases hp2 : probabilitySafePicks r2 mines ≤ 0
  · rw [payoutMultiplier_of_zero r2 mines e h2pos hp2]
    exact le_top
  · push_neg at hp2
    have hanti := prob_antitone mines r1 r2 hm0 (by omega) h12
    have hp1 : 0 < probabilitySafePicks r1 mines := lt_of_lt_of_le hp2 hanti
    rw [payoutMultiplier_of_pos r1 mines e (by omega) hp1,
      payoutMultiplier_of_pos r2 mines e h2pos hp2]
    rw [WithTop.coe_le_coe]
    have hedge : 0 ≤ 1 - max 0 (min (99 / 100 : ℚ) (e / 100)) := by
      have := (edge_clamp_bounds e).2
      linarith
    rw [div_le_div_iff₀ hp1 hp2]
    exact mul_le_mul_of_nonneg_left hanti hedge

theorem C5_monotone_amended_witness :
    payoutMultiplier 1 3 3 ≤ payoutMultiplier 2 3 3 :=
  C5_monotone_amended 3 1 2 3 (by norm_num) (by norm_num) (by norm_num)
    (by norm_num)

/-- C8 (counterexample): with r = 1, mines = 1 in [1,24] and
houseEdgePct = 10 in the allowed range [0,10],
`payoutMultiplier 1 1 10 = 15/16`, which is neither ≥ 1 nor `⊤`. -/
theorem C8_counterexample :
    (1 : ℤ) ≤ 1 ∧ (1 : ℤ) ≤ 24 ∧ (0 : ℚ) ≤ 10 ∧ (10 : ℚ) ≤ 10 ∧
      ¬ ((1 : WithTop ℚ) ≤ payoutMultiplier 1 1 10 ∨
        payoutMultiplier 1 1 10 = ⊤) := by
  refine ⟨le_refl 1, by norm_num, by norm_num, le_refl 10, ?_⟩
  rw [payout_eval_1_1_10]
  rintro (h | h)
  · rw [← WithTop.coe_one, WithTop.coe_le_coe] at h
    norm_num at h
  · exact WithTop.coe_ne_top h

/-- C8 (amended): for every r ≥ 1, mines in [1,24] and houseEdgePct in
[0,10], `payoutMultiplier(r, mines, houseEdgePct)` is either `⊤` or a finite
positive value ≥ `1 - houseEdgePct/100`; it is ≥ 1 whenever
`houseEdgePct ≤ 4·mines` (so for every mines in [1,24] when
houseEdgePct ≤ 4, and for every houseEdgePct in [0,10] when mines ≥ 3), but
can fall below 1 when `houseEdgePct > 4·mines` (e.g. r = 1, mines = 1,
houseEdgePct = 10). -/
theorem C8_multiplier_range_amended (r mines : ℤ) (e : ℚ) (hr : 1 ≤ r)
    (hm1 : 1 ≤ mines) (hm2 : mines ≤ 24) (he0 : 0 ≤ e) (he10 : e ≤ 10) :
    payoutMultiplier r mines e = ⊤ ∨
    ∃ q : ℚ, payoutMultiplier r mines e = (q : WithTop ℚ) ∧
      1 - e / 100 ≤ q ∧ 0 < q ∧ (e ≤ 4 * mines → 1 ≤ q) := by
  have hm0 : (0 : ℤ) ≤ mines := by omega
  rcases le_or_lt r (25 - mines) with hle | hgt
  · right
    have hp : 0 < probabilitySafePicks r mines :=
      prob_pos_of_le mines r hm0 (by omega) hle
    have hple1 : probabilitySafePicks r mines ≤ 1 :=
      le_trans (prob_le_factor0 mines r hm0 (by omega) hle)
        (specFactor_le_one mines hm0 0 (by omega))
    have hepos : (0 : ℚ) < 1 - e / 100 := by linarith
    refine ⟨(1 - e / 100) / probabilitySafePicks r mines, ?_, ?_, ?_, ?_⟩
    · rw [payoutMultiplier_of_pos r mines e (by omega) hp,
        edge_clamp_eq e he0 he10]
    · rw [le_div_iff₀ hp]
      exact mul_le_of_le_one_right (le_of_lt hepos) hple1
    · exact div_pos hepos hp
    · intro h4m
      rw [le_div_iff₀ hp, one_mul]
      have hfac : specFactor 25 mines 0 = (25 - (mines : ℚ)) / 25 := by
        unfold specFactor
        push_cast
        norm_num
      have hpf := prob_le_factor0 mines r hm0 (by omega) hle
      rw [hfac] at hpf
      have hcast : (mines : ℚ) ≥ e / 4 := by
        have : e ≤ ((4 * mines : ℤ) : ℚ) := by exact_mod_cast h4m
        push_cast at this
        linarith
      have : (25 - (mines : ℚ)) / 25 ≤ 1 - e / 100 := by
        rw [div_le_iff₀ (by norm_num : (0 : ℚ) < 25)]
        linarith
      linarith
  · left
    exact payoutMultiplier_of_zero r mines e (by omega)
      (le_of_eq (prob_zero_of_gt mines r (by omega) hgt))

theorem C8_multiplier_range_amended_witness :
    payoutMultiplier 1 3 3 = ⊤ ∨
    ∃ q : ℚ, payoutMultiplier 1 3 3 = (q : WithTop ℚ) ∧
      1 - 3 / 100 ≤ q ∧ 0 < q ∧ ((3 : ℚ) ≤ 4 * (3 : ℤ) → 1 ≤ q) :=
  C8_multiplier_range_amended 1 3 3 (le_refl 1) (by norm_num) (by norm_num)
    (by norm_num) (by norm_num)

/-- C7: every float the keystream yields is the next 4 bytes of the
HMAC(serverSeed, clientSeed:nonce:blockCounter) block stream — the `k`-th
float comes from block `k/8` at byte offset `4·(k%8)`, read as a big-endian
unsigned 32-bit integer and divided by `2^32`, so it lies in [0,1); the
buffer is refilled from a new MAC block (with the block counter incremented)
exactly when fewer than 4 bytes remain, which is what the `k/8` block index
expresses; and `shuffleDeterministic` consumes these floats in the contracted
Fisher-Yates order — for `i` from `n-1` down to `1`, `j = ⌊f·(i+1)⌋`, swap
positions `i` and `j` — as stated by its equality with the spec-side
`fySpecLoop` over the indexed float stream. -/
theorem C7_keystream_refinement (hmac : String → String → List ℕ)
    (hv : ValidMac hmac) (s c : String) (n nn : ℕ) :
    (∀ k, floatAt hmac s c n k = specFloat hmac s c n k ∧
      0 ≤ floatAt hmac s c n k ∧ floatAt hmac s c n k < 1) ∧
    (shuffleDeterministic hmac s c n nn initKS).1 =
      fySpecLoop (floatAt hmac s c n) 0 (nn - 1) (List.range nn) := by
  refine ⟨fun k => ⟨floatAt_eq_specFloat hmac hv s c n k,
    (floatAt_bounds hmac hv s c n k).1, (floatAt_bounds hmac hv s c n k).2⟩,
    shuffle_eq_spec hmac s c n nn⟩

theorem C7_keystream_refinement_witness :
    (∀ k, floatAt exHmac "s" "c" 1 k = specFloat exHmac "s" "c" 1 k ∧
      0 ≤ floatAt exHmac "s" "c" 1 k ∧ floatAt exHmac "s" "c" 1 k < 1) ∧
    (shuffleDeterministic exHmac "s" "c" 1 25 initKS).1 =
      fySpecLoop (floatAt exHmac "s" "c" 1) 0 (25 - 1) (List.range 25) :=
  C7_keystream_refinement exHmac validMac_exHmac "s" "c" 1 25

/-- C9: revealing a tile whose index is in the mine set during an active
round produces the Hazard outcome — the round becomes inactive (Busted) with
the balance and `safeReveals` untouched — after which every subsequent reveal
call and every cash-out call is a complete no-op; likewise cash-out with zero
safe reveals is a no-op on any state. -/
theorem C9_mine_hit_busts (s : GameState) (idx : ℕ)
    (ha : s.roundActive = true) (hm : idx ∈ s.minesSet)
    (hr : idx ∉ s.revealed) (hd : idx ∉ s.disabled)
    (t : GameState) (_hta : t.roundActive = true) (hts : t.safeReveals = 0) :
    (onTileClick s idx).roundActive = false ∧
    (onTileClick s idx).balance = s.balance ∧
    (onTileClick s idx).safeReveals = s.safeReveals ∧
    (∀ j, onTileClick (onTileClick s idx) j = onTileClick s idx) ∧
    doCashOut (onTileClick s idx) = onTileClick s idx ∧
    doCashOut t = t := by
  have hfresh : ¬ (idx ∈ s.revealed ∨ idx ∈ s.disabled) := by
    rintro (h | h)
    exacts [hr h, hd h]
  have hstep := onTileClick_mine s idx ha hfresh hm
  have hra : (onTileClick s idx).roundActive = false := by rw [hstep]
  refine ⟨hra, by rw [hstep], by rw [hstep], ?_,
    doCashOut_inactive _ hra, doCashOut_zero t hts⟩
  intro j
  exact onTileClick_inactive _ j hra

theorem C9_mine_hit_busts_witness :
    (onTileClick exActive 0).roundActive = false ∧
    (onTileClick exActive 0).balance = exActive.balance ∧
    (onTileClick exActive 0).safeReveals = exActive.safeReveals ∧
    (∀ j, onTileClick (onTileClick exActive 0) j = onTileClick exActive 0) ∧
    doCashOut (onTileClick exActive 0) = onTileClick exActive 0 ∧
    doCashOut exFresh = exFresh :=
  C9_mine_hit_busts exActive 0 rfl (by decide) (by decide) (by decide)
    exFresh rfl rfl

/-- C10: during an active round, invoking the tile-reveal handler on an index
already in the revealed set leaves the state completely unchanged (revealed
set, `safeReveals`, `roundActive` flag, balance — everything), so a safe tile
is never counted twice and the multiplier cannot be inflated by repeated
clicks on one tile. -/
theorem C10_repeat_reveal_noop (s : GameState) (idx : ℕ)
    (_ha : s.roundActive = true) (hr : idx ∈ s.revealed) :
    onTileClick s idx = s :=
  onTileClick_already s idx (Or.inl hr)

theorem C10_repeat_reveal_noop_witness : onTileClick exActive 5 = exActive :=
  C10_repeat_reveal_noop exActive 5 rfl (by decide)

/-- C6: commitment verification recomputes the digest of the revealed
serverSeed (hashing the same string representation hashed at commit time) and
succeeds exactly when the recomputed digest equals the stored commitment; the
round trip commit → any sequence of safe reveals (distinct on-board indices
avoiding the hazard set, at least one so that cash-out is accepted) →
cash-out (which reveals the secret) → verify yields `true`; and verification
of a single-bit mutation of the seed against the original commitment returns
`false` whenever the mutated seed's digest differs from the original's (which
for SHA-256 — an external primitive modelled here as an abstract function —
is its collision-freedom on such pairs). -/
theorem C6_commitment_verification
    (H : String → String) (hmac : String → String → List ℕ)
    (hv : ValidMac hmac)
    (st : GameState) (sd d txt : String)
    (hs : st.serverSeed = some sd) (hh : st.serverSeedHash = some d)
    (hact : st.roundActive = false) (ht : st.serverSeedText = some txt)
    (s₀ : GameState) (h₀ : s₀.roundActive = false)
    (betIn : ℚ) (minesIn : ℤ) (edgeIn : ℚ) (csIn : Option String)
    (fc fs : String) (hbal : clampBet betIn ≤ s₀.balance)
    (l : List ℕ) (hl0 : l ≠ []) (hnd : l.Nodup)
    (hlsafe : ∀ x ∈ l, x < 25 ∧
      x ∉ (startRound H hmac betIn minesIn edgeIn csIn fc fs s₀).minesSet)
    (sd' : String) (i b : ℕ) (hneq : H (flipBit sd' i b) ≠ H sd') :
    (verifyCommitment H st = some (checkCommitment H sd d) ∧
      (verifyCommitment H st = some true ↔ H sd = d)) ∧
    verifyCommitment H
      (doCashOut (playClicks
        (startRound H hmac betIn minesIn edgeIn csIn fc fs s₀) l)) =
      some true ∧
    checkCommitment H (flipBit sd' i b) (H sd') = false := by
  have hA1 := verifyCommitment_eq H st sd d txt hs hh ht hact
  have hA2 : verifyCommitment H st = some true ↔ H sd = d := by
    rw [hA1]
    simp [checkCommitment]
  have hC : checkCommitment H (flipBit sd' i b) (H sd') = false := by
    simp [checkCommitment, hneq]
  refine ⟨⟨hA1, hA2⟩, ?_, hC⟩
  have hstart := startRound_success H hmac betIn minesIn edgeIn csIn fc fs s₀
    h₀ hbal
  set S := startRound H hmac betIn minesIn edgeIn csIn fc fs s₀ with hS
  have f_active : S.roundActive = true := by rw [hstart]
  have f_safe : S.safeReveals = 0 := by rw [hstart]
  have f_mines : S.minesSet = mineSetOf hmac fs (csIn.getD fc) (s₀.nonce + 1)
      (clampMines minesIn) := by rw [hstart]
  have f_mcount : S.minesCount = clampMines minesIn := by rw [hstart]
  have f_seed : S.serverSeed = some fs := by rw [hstart]
  have f_hash : S.serverSeedHash = some (H fs) := by rw [hstart]
  have f_rev : S.revealed = (∅ : Finset ℕ) := by rw [hstart]
  have f_dis : S.disabled = (∅ : Finset ℕ) := by rw [hstart]
  have hcond : ∀ x ∈ l, x ∉ S.minesSet ∧ x ∉ S.revealed ∧ x ∉ S.disabled := by
    intro x hx
    refine ⟨(hlsafe x hx).2, ?_, ?_⟩
    · rw [f_rev]
      exact Finset.not_mem_empty x
    · rw [f_dis]
      exact Finset.not_mem_empty x
  obtain ⟨p1, p2, p3, p4, p5, p6, p7, p8, p9⟩ :=
    playClicks_safe l S f_active hnd hcond
  have hsr : (playClicks S l).safeReveals = l.length := by
    rw [p2, f_safe, zero_add]
  have hlen0 : l.length ≠ 0 := by
    intro h
    exact hl0 (List.length_eq_zero.1 h)
  obtain ⟨hm1, hm2⟩ := clampMines_bounds minesIn
  have hmsp := mineSet_spec hmac hv fs (csIn.getD fc) (s₀.nonce + 1)
    (clampMines minesIn) (by omega)
  have hsubR : mineSetOf hmac fs (csIn.getD fc) (s₀.nonce + 1)
      (clampMines minesIn) ⊆ Finset.range 25 := by
    intro x hx
    exact Finset.mem_range.2 (hmsp.2 x hx)
  have hlsub : l.toFinset ⊆ Finset.range 25 \ mineSetOf hmac fs
      (csIn.getD fc) (s₀.nonce + 1) (clampMines minesIn) := by
    intro x hx
    rw [List.mem_toFinset] at hx
    refine Finset.mem_sdiff.2 ⟨Finset.mem_range.2 (hlsafe x hx).1, ?_⟩
    have hxm := (hlsafe x hx).2
    rw [f_mines] at hxm
    exact hxm
  have hcard : l.length ≤ 25 - clampMines minesIn := by
    have h1 := Finset.card_le_card hlsub
    rw [List.toFinset_card_of_nodup hnd, Finset.card_sdiff hsubR,
      Finset.card_range, hmsp.1] at h1
    exact h1
  have hrpos : (0 : ℤ) < ((playClicks S l).safeReveals : ℤ) := by
    rw [hsr]
    exact_mod_cast Nat.pos_of_ne_zero hlen0
  have hprob : 0 < probabilitySafePicks ((playClicks S l).safeReveals : ℤ)
      ((playClicks S l).minesCount : ℤ) := by
    rw [hsr, p4, f_mcount]
    apply prob_pos_of_le
    · exact_mod_cast Nat.zero_le _
    · exact_mod_cast Nat.pos_of_ne_zero hlen0
    · omega
  have hfin : payoutMultiplier ((playClicks S l).safeReveals : ℤ)
      ((playClicks S l).minesCount : ℤ) (playClicks S l).houseEdgePct ≠ ⊤ := by
    rw [payoutMultiplier_of_pos _ _ _ hrpos hprob]
    exact WithTop.coe_ne_top
  have hdc := doCashOut_fields (playClicks S l) p1
    (by rw [hsr]; exact hlen0) hfin
  have hseed3 : (doCashOut (playClicks S l)).serverSeed = some fs :=
    hdc.2.1.trans (p6.trans f_seed)
  have hhash3 : (doCashOut (playClicks S l)).serverSeedHash = some (H fs) :=
    hdc.2.2.1.trans (p7.trans f_hash)
  have htext3 : (doCashOut (playClicks S l)).serverSeedText = some fs :=
    hdc.2.2.2.trans (p6.trans f_seed)
  rw [verifyCommitment_eq H (doCashOut (playClicks S l)) fs (H fs) fs hseed3
    hhash3 htext3 hdc.1]
  simp [checkCommitment]

theorem C6_commitment_verification_witness :
    (verifyCommitment exH exDone = some (checkCommitment exH "s" "s") ∧
      (verifyCommitment exH exDone = some true ↔ exH "s" = "s")) ∧
    verifyCommitment exH
      (doCashOut (playClicks
        (startRound exH exHmac 1 3 3 (some "c") "f" "s" exIdle) [5])) =
      some true ∧
    checkCommitment exH (flipBit "ab" 0 0) (exH "ab") = false :=
  C6_commitment_verification exH exHmac validMac_exHmac exDone "s" "s" "s"
    rfl rfl rfl rfl exIdle rfl 1 3 3 (some "c") "f" "s"
    (by norm_num [clampBet, exIdle]) [5] (by simp) (by decide)
    (by
      intro x hx
      simp at hx
      subst hx
      exact ⟨by norm_num, by rw [exStart_minesSet]; decide⟩)
    "ab" 0 0 (by decide)

end MockMines

